import Mathlib

/-
Verification development for the dbBuild on-disk JSON document store
(src/main.go). The storage driver maps (collection, resource) pairs to
files under a root directory, serializes values to indented JSON, and
exposes Write / Read / ReadAll / Delete operations.

Shallow embedding choices:
* The filesystem is a finite tree of named entries (`Node`), rooted at the
  driver's root directory.  Paths are lists of clean name components
  relative to the root; `filepath.Join` on clean, separator-free names is
  concatenation that drops empty components, and appending a string such
  as ".json" to a path string appends it to the last component.
* The Go code probes `d.dir + ".json"` (a sibling of the root, outside the
  modeled tree) only when the whole root is absent; the model treats that
  sibling as never existing.
* JSON wire encoding is delegated by the source to `encoding/json`
  (an external collaborator per the spec).  `marshalIndent` models
  `json.MarshalIndent(v, "", "\t")` on JSON values; values the Go encoder
  rejects (channels, functions, NaN, ...) are modeled by the constructor
  `GoValue.unsupported`.  `json.Unmarshal` is taken as a parameter
  `um : String → Option JsonVal` of `Driver.Read`.
* Concurrency (the per-collection mutexes from `getOrCreateMutext`) is not
  modeled: each operation is a single functional step on the filesystem
  state, which is what the claims under verification quantify over.
-/

namespace DbBuild

/-- Filesystem node: a regular file with raw text content, or a directory
with a list of named child entries (names are unique in a well-formed
directory; lookups find the first occurrence, as a real directory would). -/
inductive Node where
  | file (content : String)
  | dir (entries : List (String × Node))

abbrev Entries := List (String × Node)

/-- Look up the first entry with the given name. -/
def findEntry : Entries → String → Option Node
  | [], _ => none
  | (k, n) :: es, x => if k = x then some n else findEntry es x

/-- Replace the entry with the given name, or append it if absent. -/
def setEntry : Entries → String → Node → Entries
  | [], x, n => [(x, n)]
  | (k, v) :: es, x, n => if k = x then (x, n) :: es else (k, v) :: setEntry es x n

/-- Remove the first entry with the given name. -/
def removeEntry : Entries → String → Entries
  | [], _ => []
  | (k, v) :: es, x => if k = x then es else (k, v) :: removeEntry es x

/-- Resolve a relative path inside a node. -/
def Node.lookup : Node → List String → Option Node
  | n, [] => some n
  | .file _, _ :: _ => none
  | .dir es, x :: p =>
    match findEntry es x with
    | some n => n.lookup p
    | none => none

/-- The filesystem as seen by the driver: what currently sits at the root
directory path, if anything. -/
structure FS where
  root : Option Node

/-- Resolve a path relative to the root. -/
def FS.lookup (fs : FS) (p : List String) : Option Node :=
  match fs.root with
  | some n => n.lookup p
  | none => none

/-- Model of `ioutil.ReadFile`: the raw content if the path is a regular
file, failure otherwise. -/
def FS.readFile (fs : FS) (p : List String) : Option String :=
  match fs.lookup p with
  | some (.file c) => some c
  | _ => none

/-- File kind reported by a successful `os.Stat`. -/
inductive StatR where
  | file
  | dir
  | notFound
deriving DecidableEq

/-- Model of a single `os.Stat` call. -/
def FS.statRaw (fs : FS) (p : List String) : StatR :=
  match fs.lookup p with
  | some (.file _) => .file
  | some (.dir _) => .dir
  | none => .notFound

/-- Append ".json" to the last component: `path + ".json"` on a clean path
string suffixes the final component. -/
def addJsonExt : List String → List String
  | [] => []
  | [x] => [x ++ ".json"]
  | x :: y :: p => x :: addJsonExt (y :: p)

/-- Model of the source helper `stat` (src/main.go lines 188-195): stat the
bare path, and if it does not exist, stat the path with a `.json` suffix.
For the empty relative path the suffixed probe would target the sibling
`<root>.json`, which lies outside the modeled tree and is treated as
absent. -/
def FS.stat (fs : FS) (p : List String) : StatR :=
  match fs.statRaw p, p with
  | .notFound, _ :: _ => fs.statRaw (addJsonExt p)
  | r, _ => r

/-- Model of `os.MkdirAll` below a node: create every missing directory on
the path; fail if a path component exists as a regular file. -/
def mkdirAllAux : Node → List String → Option Node
  | .dir es, [] => some (.dir es)
  | .file _, [] => none
  | .file _, _ :: _ => none
  | .dir es, x :: p =>
    match findEntry es x with
    | some n => (mkdirAllAux n p).map (fun n2 => Node.dir (setEntry es x n2))
    | none => (mkdirAllAux (.dir []) p).map (fun n2 => Node.dir (setEntry es x n2))

/-- Model of `os.MkdirAll` on a root-relative path (the root itself is
created when absent). -/
def FS.mkdirAll (fs : FS) (p : List String) : Option FS :=
  match fs.root with
  | some n => (mkdirAllAux n p).map (fun n2 => FS.mk (some n2))
  | none => (mkdirAllAux (.dir []) p).map (fun n2 => FS.mk (some n2))

/-- Model of `ioutil.WriteFile` below a node: create or overwrite a regular
file; fail when the parent directory is missing, when a path component is a
file, or when the target is a directory. -/
def writeFileAux : Node → List String → String → Option Node
  | .dir es, [x], c =>
    match findEntry es x with
    | some (.dir _) => none
    | _ => some (.dir (setEntry es x (.file c)))
  | .dir es, x :: y :: p, c =>
    match findEntry es x with
    | some n => (writeFileAux n (y :: p) c).map (fun n2 => Node.dir (setEntry es x n2))
    | none => none
  | _, _, _ => none

/-- Model of `ioutil.WriteFile` on a root-relative path. -/
def FS.writeFile (fs : FS) (p : List String) (c : String) : Option FS :=
  match fs.root with
  | some n => (writeFileAux n p c).map (fun n2 => FS.mk (some n2))
  | none => none

/-- Model of `os.RemoveAll` below a node: remove the subtree at the path;
removing a missing path is a no-op; `none` means the node itself is gone. -/
def removeAllAux : Node → List String → Option Node
  | _, [] => none
  | .file c, _ :: _ => some (.file c)
  | .dir es, x :: p =>
    some (.dir (match findEntry es x with
      | none => es
      | some n =>
        match removeAllAux n p with
        | none => removeEntry es x
        | some n2 => setEntry es x n2))

/-- Model of `os.RemoveAll` on a root-relative path. -/
def FS.removeAll (fs : FS) (p : List String) : FS :=
  match fs.root with
  | some n => FS.mk (removeAllAux n p)
  | none => fs

/-- Model of `os.Rename` as used by the driver: the source is a regular
file just written; it is unlinked and its content placed at the
destination (failing if the destination is a directory). -/
def FS.rename (fs : FS) (src dst : List String) : Option FS :=
  match fs.lookup src with
  | some (.file c) =>
    match fs.lookup dst with
    | some (.dir _) => none
    | _ => (fs.removeAll src).writeFile dst c
  | _ => none

/-- Lexicographic order on the character lists of two names (the order in
which `ioutil.ReadDir` sorts directory entries). -/
def nameLtAux : List Char → List Char → Bool
  | [], [] => false
  | [], _ :: _ => true
  | _ :: _, [] => false
  | a :: as, b :: bs =>
    if a.toNat < b.toNat then true
    else if b.toNat < a.toNat then false
    else nameLtAux as bs

/-- Lexicographic order on names. -/
def nameLt (a b : String) : Bool :=
  nameLtAux a.data b.data

/-- Insert an entry into a name-sorted entry list. -/
def insertEntry (e : String × Node) : Entries → Entries
  | [] => [e]
  | f :: es => if nameLt e.1 f.1 then e :: f :: es else f :: insertEntry e es

/-- Sort entries by name, as `ioutil.ReadDir` reports them. -/
def sortEntries : Entries → Entries
  | [] => []
  | e :: es => insertEntry e (sortEntries es)

/-- Model of `ioutil.ReadDir`: the entries of a directory sorted by
filename, or failure when the path is not a directory. -/
def FS.readDir (fs : FS) (p : List String) : Option Entries :=
  match fs.lookup p with
  | some (.dir es) => some (sortEntries es)
  | _ => none

/-- Tagged error kinds for the driver's plain string errors (spec section 7). -/
inductive DbErr where
  | validation
  | notFound
  | serialization
  | deserialization
  | io
deriving DecidableEq

mutual
/-- JSON values, the abstract form of what `encoding/json` encodes. -/
inductive JsonVal where
  | null
  | bool (b : Bool)
  | num (n : Int)
  | str (s : String)
  | arr (elems : JsonElems)
  | obj (fields : JsonFields)

/-- Sequence of array elements. -/
inductive JsonElems where
  | nil
  | cons (hd : JsonVal) (tl : JsonElems)

/-- Sequence of object fields. -/
inductive JsonFields where
  | nil
  | cons (key : String) (val : JsonVal) (tl : JsonFields)
end

/-- Escape one character the way Go's JSON encoder does (quotes, common
control characters, and the HTML-escaped characters). -/
def escChar (c : Char) : String :=
  if c = '"' then "\\\""
  else if c = '\\' then "\\\\"
  else if c = '\n' then "\\n"
  else if c = '\t' then "\\t"
  else if c = '\r' then "\\r"
  else if c = '<' then "\\u003c"
  else if c = '>' then "\\u003e"
  else if c = '&' then "\\u0026"
  else String.singleton c

/-- Quote a string as a JSON string literal. -/
def jsonQuote (s : String) : String :=
  "\"" ++ String.join (s.data.map escChar) ++ "\""

/-- A run of `n` tab characters, the indent unit of `MarshalIndent(v, "", "\t")`. -/
def tabs (n : Nat) : String :=
  String.mk (List.replicate n '\t')

mutual
/-- Pretty-print a JSON value at the given indent depth, modelling
`json.MarshalIndent(v, "", "\t")`. -/
def marshalVal : Nat → JsonVal → String
  | _, .null => "null"
  | _, .bool true => "true"
  | _, .bool false => "false"
  | _, .num n => toString n
  | _, .str s => jsonQuote s
  | lvl, .arr xs =>
    match xs with
    | .nil => "[]"
    | _ => "[\n" ++ marshalElems (lvl + 1) xs ++ "\n" ++ tabs lvl ++ "]"
  | lvl, .obj fs =>
    match fs with
    | .nil => "\x7b\x7d"
    | _ => "\x7b\n" ++ marshalFields (lvl + 1) fs ++ "\n" ++ tabs lvl ++ "\x7d"

/-- Pretty-print comma-separated, indented array elements. -/
def marshalElems : Nat → JsonElems → String
  | _, .nil => ""
  | lvl, .cons x xs =>
    tabs lvl ++ marshalVal lvl x
      ++ (match xs with | .nil => "" | .cons _ _ => ",\n") ++ marshalElems lvl xs

/-- Pretty-print comma-separated, indented object fields. -/
def marshalFields : Nat → JsonFields → String
  | _, .nil => ""
  | lvl, .cons k v fs =>
    tabs lvl ++ jsonQuote k ++ ": " ++ marshalVal lvl v
      ++ (match fs with | .nil => "" | .cons _ _ _ => ",\n") ++ marshalFields lvl fs
end

/-- Top-level `json.MarshalIndent(v, "", "\t")` output for a JSON value. -/
def marshalIndent (v : JsonVal) : String :=
  marshalVal 0 v

/-- Values handed to `Write`: either encodable to JSON, or one of the Go
values the encoder rejects (channels, functions, unsupported floats, ...). -/
inductive GoValue where
  | jsonable (j : JsonVal)
  | unsupported

/-- Model of `json.MarshalIndent(v, "", "\t")` including its failure case. -/
def goMarshalIndent : GoValue → Option String
  | .jsonable j => some (marshalIndent j)
  | .unsupported => none

/-- Model of `filepath.Join(a, b)` on clean, separator-free names: empty
components vanish. -/
def joinNames (a b : String) : List String :=
  (if a = "" then [] else [a]) ++ (if b = "" then [] else [b])

/-- Model of `Driver.Write` (src/main.go lines 66-98): validate names,
ensure the collection directory, serialize with a trailing newline, write a
temporary sibling file `<resource>.json.tmp`, and rename it over
`<collection>/<resource>.json`.  Returns the error (if any) and the
resulting filesystem. -/
def Driver.Write (fs : FS) (collections resource : String) (v : GoValue) :
    Option DbErr × FS :=
  if collections = "" then (some .validation, fs)
  else if resource = "" then (some .validation, fs)
  else
    match fs.mkdirAll [collections] with
    | none => (some .io, fs)
    | some fs1 =>
      match goMarshalIndent v with
      | none => (some .serialization, fs1)
      | some b =>
        match fs1.writeFile [collections, resource ++ ".json" ++ ".tmp"] (b ++ "\n") with
        | none => (some .io, fs1)
        | some fs2 =>
          match fs2.rename [collections, resource ++ ".json" ++ ".tmp"]
              [collections, resource ++ ".json"] with
          | none => (some .io, fs2)
          | some fs3 => (none, fs3)

/-- Model of `Driver.Read` (src/main.go lines 100-121): validate names,
then — exactly as the source does — form `record = filepath.Join(d.dir,
collections)` WITHOUT the resource component (line 109), `stat` that path
(bare then `.json`-suffixed), read `record + ".json"`, and unmarshal.  The
unmarshaller `um` stands for `json.Unmarshal`. -/
def Driver.Read (um : String → Option JsonVal) (fs : FS)
    (collections resource : String) : Except DbErr JsonVal :=
  if collections = "" then .error .validation
  else if resource = "" then .error .validation
  else
    match fs.stat [collections] with
    | .notFound => .error .notFound
    | _ =>
      match fs.readFile [collections ++ ".json"] with
      | none => .error .io
      | some b =>
        match um b with
        | some j => .ok j
        | none => .error .deserialization

/-- Read each directory entry's raw content in listing order, stopping at
the first read failure (the loop of src/main.go lines 138-145). -/
def readRecords (fs : FS) (dir : List String) : Entries → Except DbErr (List String)
  | [] => .ok []
  | e :: es =>
    match fs.readFile (dir ++ [e.1]) with
    | none => .error .io
    | some b =>
      match readRecords fs dir es with
      | .ok rs => .ok (b :: rs)
      | .error err => .error err

/-- Model of `Driver.ReadAll` (src/main.go lines 123-149): validate the
collection name, `stat` the collection directory (bare then suffixed), then
list the directory IGNORING any listing error (line 134: `files, _ :=
ioutil.ReadDir(dir)`) and read every listed entry. -/
def Driver.ReadAll (fs : FS) (collections : String) : Except DbErr (List String) :=
  if collections = "" then .error .validation
  else
    match fs.stat [collections] with
    | .notFound => .error .notFound
    | _ => readRecords fs [collections] ((fs.readDir [collections]).getD [])

/-- Model of `Driver.Delete` (src/main.go lines 151-172): no name
validation; target `filepath.Join(collections, resource)` under the root;
on a directory remove it recursively, on a regular file remove the
`.json`-suffixed path, otherwise report not found. -/
def Driver.Delete (fs : FS) (collections resource : String) : Option DbErr × FS :=
  match fs.stat (joinNames collections resource) with
  | .notFound => (some .notFound, fs)
  | .dir => (none, fs.removeAll (joinNames collections resource))
  | .file => (none, fs.removeAll (addJsonExt (joinNames collections resource)))

/-- Boolean path-prefix test: `pathLe p q` holds when `p` is an initial
segment of `q`. -/
def pathLe : List String → List String → Bool
  | [], _ => true
  | _ :: _, [] => false
  | x :: xs, y :: ys => if x = y then pathLe xs ys else false

/-- File content of a node (dummy value for directories). -/
def contentD : Node → String
  | .file c => c
  | .dir _ => ""

/-! ### Concrete stores used as inputs for counterexamples and witnesses -/

/-- Store holding only an empty root directory. -/
def fsEmpty : FS := ⟨some (.dir [])⟩

/-- Small JSON object, the analogue of the demo's `User` record. -/
def jv : JsonVal := .obj (.cons "Name" (.str "John") .nil)

/-- Store with resource `users/john.json` and a stray root-level file
`users.json` whose content differs. -/
def fsMix : FS :=
  ⟨some (.dir [("users", .dir [("john.json", .file "B")]), ("users.json", .file "A")])⟩

/-- Store with one collection `users` holding one resource. -/
def fsOne : FS := ⟨some (.dir [("users", .dir [("john.json", .file "X")])])⟩

/-- Store with collection `users` (two resources) and empty collection `posts`. -/
def fsTwo : FS :=
  ⟨some (.dir [("users", .dir [("john.json", .file "J"), ("paul.json", .file "P")]),
               ("posts", .dir [])])⟩

/-- Store with only a root-level file `users.json` and no `users` directory. -/
def fsStray : FS := ⟨some (.dir [("users.json", .file "x")])⟩

/-! ### Basic lemmas about directory entry lists -/

theorem findEntry_setEntry_self (es : Entries) (x : String) (n : Node) :
    findEntry (setEntry es x n) x = some n := by
  induction es with
  | nil => simp [setEntry, findEntry]
  | cons e es ih =>
    obtain ⟨k, v⟩ := e
    by_cases h : k = x
    · simp [setEntry, findEntry, h]
    · simp [setEntry, findEntry, h, ih]

theorem findEntry_setEntry_ne (es : Entries) (x : String) (n : Node) (y : String)
    (h : y ≠ x) : findEntry (setEntry es x n) y = findEntry es y := by
  have hxy : ¬ (x = y) := fun hh => h hh.symm
  induction es with
  | nil => simp [setEntry, findEntry, hxy]
  | cons e es ih =>
    obtain ⟨k, v⟩ := e
    by_cases hk : k = x
    · subst hk
      simp [setEntry, findEntry, hxy]
    · simp [setEntry, findEntry, hk, ih]

theorem findEntry_removeEntry_ne (es : Entries) (x y : String) (h : y ≠ x) :
    findEntry (removeEntry es x) y = findEntry es y := by
  have hxy : ¬ (x = y) := fun hh => h hh.symm
  induction es with
  | nil => simp [removeEntry]
  | cons e es ih =>
    obtain ⟨k, v⟩ := e
    by_cases hk : k = x
    · subst hk
      simp [removeEntry, findEntry, hxy]
    · simp [removeEntry, findEntry, hk, ih]

theorem findEntry_eq_none (es : Entries) (x : String)
    (h : x ∉ es.map Prod.fst) : findEntry es x = none := by
  induction es with
  | nil => rfl
  | cons e es ih =>
    obtain ⟨k, v⟩ := e
    simp only [List.map_cons, List.mem_cons] at h
    push_neg at h
    have hk : ¬ (k = x) := fun hh => h.1 hh.symm
    simp [findEntry, hk, ih h.2]

theorem findEntry_removeEntry_self (es : Entries) (x : String)
    (h : (es.map Prod.fst).Nodup) : findEntry (removeEntry es x) x = none := by
  induction es with
  | nil => rfl
  | cons e es ih =>
    obtain ⟨k, v⟩ := e
    simp only [List.map_cons, List.nodup_cons] at h
    by_cases hk : k = x
    · subst hk
      simp only [removeEntry, if_pos rfl]
      exact findEntry_eq_none es k (fun hm => h.1 (by simpa using hm))
    · simp [removeEntry, findEntry, hk, ih h.2]

theorem findEntry_of_mem (es : Entries) (x : String) (n : Node)
    (h : (es.map Prod.fst).Nodup) (hm : (x, n) ∈ es) : findEntry es x = some n := by
  induction es with
  | nil => simp at hm
  | cons e es ih =>
    obtain ⟨k, v⟩ := e
    simp only [List.map_cons, List.nodup_cons] at h
    rcases List.mem_cons.mp hm with he | he
    · have hx : x = k ∧ n = v := by
        have := he
        simp only [Prod.mk.injEq] at this
        exact this
      obtain ⟨hx1, hx2⟩ := hx
      subst hx1
      subst hx2
      simp [findEntry]
    · by_cases hkx : k = x
      · subst hkx
        exact absurd (List.mem_map_of_mem Prod.fst he) h.1
      · simp [findEntry, hkx, ih h.2 he]

/-! ### Path resolution lemmas -/

theorem Node.lookup_single (es : Entries) (x : String) :
    (Node.dir es).lookup [x] = findEntry es x := by
  cases h : findEntry es x <;> simp [Node.lookup, h]

theorem FS.lookup_child (fs : FS) (c : String) (es : Entries)
    (h : fs.lookup [c] = some (Node.dir es)) (x : String) :
    fs.lookup [c, x] = findEntry es x := by
  cases hr : fs.root with
  | none => simp [FS.lookup, hr] at h
  | some n =>
    simp only [FS.lookup, hr] at h ⊢
    cases n with
    | file _ => simp [Node.lookup] at h
    | dir rootEs =>
      cases hf : findEntry rootEs c with
      | none => simp [Node.lookup, hf] at h
      | some m =>
        simp only [Node.lookup, hf] at h ⊢
        cases m with
        | file _ => simp [Node.lookup] at h
        | dir es2 =>
          simp only [Node.lookup, Option.some.injEq, Node.dir.injEq] at h
          subst h
          exact Node.lookup_single _ x

/-! ### Locality of removeAll -/

theorem removeAllAux_isSome (n : Node) (q : List String) (hq : q ≠ []) :
    ∃ n', removeAllAux n q = some n' := by
  cases q with
  | nil => exact absurd rfl hq
  | cons x xs =>
    cases n with
    | file c => exact ⟨.file c, rfl⟩
    | dir es => exact ⟨_, rfl⟩

theorem removeAllAux_lookup_other :
    ∀ (q : List String) (n : Node) (p : List String), q ≠ [] →
      pathLe q p = false → pathLe p q = false → ∀ n',
      removeAllAux n q = some n' → n'.lookup p = n.lookup p := by
  intro q
  induction q with
  | nil => intro n p hq _ _ n' _; exact absurd rfl hq
  | cons x xs ih =>
    intro n p _ hqp hpq n' hrm
    cases p with
    | nil => simp [pathLe] at hpq
    | cons y ys =>
      cases n with
      | file cnt =>
        simp only [removeAllAux, Option.some.injEq] at hrm
        subst hrm
        rfl
      | dir es =>
        simp only [removeAllAux, Option.some.injEq] at hrm
        subst hrm
        by_cases hxy : y = x
        · subst hxy
          simp only [pathLe, if_pos rfl] at hqp hpq
          have hxs : xs ≠ [] := by
            intro h
            subst h
            simp [pathLe] at hqp
          cases hf : findEntry es y with
          | none => simp [Node.lookup, hf]
          | some n0 =>
            obtain ⟨n2, hn2⟩ := removeAllAux_isSome n0 xs hxs
            simp only [hf, hn2, Node.lookup, findEntry_setEntry_self]
            rw [ih n0 ys hxs hqp hpq n2 hn2]
        · have hxy' : ¬ (x = y) := fun h => hxy h.symm
          cases hf : findEntry es x with
          | none => simp [hf]
          | some n0 =>
            cases hra : removeAllAux n0 xs with
            | none =>
              simp [Node.lookup, hf, hra, findEntry_removeEntry_ne es x y hxy]
            | some n2 =>
              simp [Node.lookup, hf, hra, findEntry_setEntry_ne es x n2 y hxy]

theorem FS.removeAll_lookup_other (fs : FS) (q p : List String) (hq : q ≠ [])
    (h1 : pathLe q p = false) (h2 : pathLe p q = false) :
    (fs.removeAll q).lookup p = fs.lookup p := by
  cases hr : fs.root with
  | none => simp [FS.removeAll, hr]
  | some n =>
    obtain ⟨n', hn'⟩ := removeAllAux_isSome n q hq
    simp [FS.removeAll, FS.lookup, hr, hn',
      removeAllAux_lookup_other q n p hq h1 h2 n' hn']

/-! ### mkdirAll, writeFile and rename lemmas -/

theorem mkdirAll_lookup_child (fs : FS) (c : String) (fs1 : FS)
    (h : fs.mkdirAll [c] = some fs1) (x : String) :
    fs1.lookup [c, x] = fs.lookup [c, x] := by
  cases hr : fs.root with
  | none =>
    simp only [FS.mkdirAll, hr, mkdirAllAux, findEntry, setEntry, Option.map_some', Option.map_some, Option.some.injEq] at h
    subst h
    simp [FS.lookup, hr, Node.lookup, findEntry, setEntry]
  | some n =>
    cases n with
    | file cnt => simp [FS.mkdirAll, hr, mkdirAllAux] at h
    | dir rootEs =>
      cases hf : findEntry rootEs c with
      | none =>
        simp only [FS.mkdirAll, hr, mkdirAllAux, hf, Option.map_some', Option.map_some, Option.some.injEq] at h
        subst h
        simp [FS.lookup, hr, Node.lookup, findEntry_setEntry_self, hf, findEntry]
      | some m =>
        cases m with
        | file cnt => simp [FS.mkdirAll, hr, mkdirAllAux, hf] at h
        | dir es =>
          simp only [FS.mkdirAll, hr, mkdirAllAux, hf, Option.map_some', Option.map_some, Option.some.injEq] at h
          subst h
          simp [FS.lookup, hr, Node.lookup, findEntry_setEntry_self, hf]

theorem writeFileAux_lookup_self :
    ∀ (p : List String) (n : Node) (c : String) (n2 : Node),
      writeFileAux n p c = some n2 → n2.lookup p = some (.file c) := by
  intro p
  induction p with
  | nil => intro n c n2 h; cases n <;> simp [writeFileAux] at h
  | cons x q ih =>
    intro n c n2 h
    cases n with
    | file _ => simp [writeFileAux] at h
    | dir es =>
      cases q with
      | nil =>
        cases hf : findEntry es x with
        | none =>
          simp only [writeFileAux, hf, Option.some.injEq] at h
          subst h
          simp [Node.lookup, findEntry_setEntry_self]
        | some m =>
          cases m with
          | dir _ => simp [writeFileAux, hf] at h
          | file _ =>
            simp only [writeFileAux, hf, Option.some.injEq] at h
            subst h
            simp [Node.lookup, findEntry_setEntry_self]
      | cons y r =>
        cases hf : findEntry es x with
        | none => simp [writeFileAux, hf] at h
        | some m =>
          cases hw : writeFileAux m (y :: r) c with
          | none => simp [writeFileAux, hf, hw] at h
          | some m2 =>
            simp only [writeFileAux, hf, hw, Option.map_some', Option.map_some, Option.some.injEq] at h
            subst h
            simp [Node.lookup, findEntry_setEntry_self, ih m c m2 hw]

theorem FS.writeFile_lookup_self (fs : FS) (p : List String) (c : String) (fs2 : FS)
    (h : fs.writeFile p c = some fs2) : fs2.lookup p = some (.file c) := by
  cases hr : fs.root with
  | none => simp [FS.writeFile, hr] at h
  | some n =>
    cases hw : writeFileAux n p c with
    | none => simp [FS.writeFile, hr, hw] at h
    | some n2 =>
      simp only [FS.writeFile, hr, hw, Option.map_some', Option.map_some, Option.some.injEq] at h
      subst h
      simpa [FS.lookup] using writeFileAux_lookup_self p n c n2 hw

theorem FS.rename_inv (fs : FS) (src dst : List String) (fs' : FS)
    (h : fs.rename src dst = some fs') :
    ∃ cnt, fs.lookup src = some (.file cnt)
      ∧ (fs.removeAll src).writeFile dst cnt = some fs' := by
  unfold FS.rename at h
  cases hl : fs.lookup src with
  | none => rw [hl] at h; simp at h
  | some m =>
    rw [hl] at h
    cases m with
    | dir _ => simp at h
    | file cnt =>
      refine ⟨cnt, rfl, ?_⟩
      cases hd : fs.lookup dst with
      | none => rw [hd] at h; exact h
      | some m2 =>
        rw [hd] at h
        cases m2 with
        | file _ => exact h
        | dir _ => simp at h

/-! ### Inversion of a successful Write -/

theorem write_success_chain (fs : FS) (c r : String) (v : GoValue) (fs' : FS)
    (hc : c ≠ "") (hr : r ≠ "")
    (h : Driver.Write fs c r v = (none, fs')) :
    ∃ b fs1 fs2, goMarshalIndent v = some b ∧ fs.mkdirAll [c] = some fs1 ∧
      fs1.writeFile [c, r ++ ".json" ++ ".tmp"] (b ++ "\n") = some fs2 ∧
      fs2.rename [c, r ++ ".json" ++ ".tmp"] [c, r ++ ".json"] = some fs' := by
  unfold Driver.Write at h
  rw [if_neg hc, if_neg hr] at h
  split at h
  · simp at h
  · rename_i fs1 hmk
    split at h
    · simp at h
    · rename_i b hm
      split at h
      · simp at h
      · rename_i fs2 hw
        split at h
        · simp at h
        · rename_i fs3 hrn
          simp only [Prod.mk.injEq] at h
          exact ⟨b, fs1, fs2, hm, hmk, hw, h.2 ▸ hrn⟩

/-! ### Directory listing lemmas -/

theorem insertEntry_perm (e : String × Node) (l : Entries) :
    List.Perm (insertEntry e l) (e :: l) := by
  induction l with
  | nil => exact List.Perm.refl _
  | cons f fs ih =>
    cases hlt : nameLt e.1 f.1 with
    | true => simp [insertEntry, hlt]
    | false =>
      simp only [insertEntry, hlt, Bool.false_eq_true, if_false]
      exact (ih.cons f).trans (List.Perm.swap e f fs)

theorem sortEntries_perm (l : Entries) : List.Perm (sortEntries l) l := by
  induction l with
  | nil => exact List.Perm.refl _
  | cons e es ih => exact (insertEntry_perm e (sortEntries es)).trans (ih.cons e)

theorem readRecords_ok (fs : FS) (dir : List String) :
    ∀ l : Entries,
      (∀ e ∈ l, ∃ cnt, e.2 = Node.file cnt ∧ fs.readFile (dir ++ [e.1]) = some cnt) →
      readRecords fs dir l = .ok (l.map (fun e => contentD e.2)) := by
  intro l
  induction l with
  | nil => intro _; rfl
  | cons e es ih =>
    intro h
    obtain ⟨cnt, he, hrd⟩ := h e (List.mem_cons_self e es)
    simp only [readRecords, hrd]
    rw [ih (fun e' he' => h e' (List.mem_cons_of_mem e he'))]
    simp [he, contentD]

/-! ### Claim theorems -/

/-- Claim C1 (refuted by the code, documenting the bug): writing
`users/john` to a fresh store succeeds, yet the subsequent `Read` of the
same (collection, resource) pair fails — the source joins only the
collection into the read path (src/main.go line 109) and then reads
`<root>/users.json`, which the write never created.  This holds for every
unmarshaller, instantiated here with a total one. -/
theorem c1_write_then_read_fails :
    (Driver.Write fsEmpty "users" "john" (GoValue.jsonable jv)).1 = none
    ∧ Driver.Read (fun s => some (JsonVal.str s))
        (Driver.Write fsEmpty "users" "john" (GoValue.jsonable jv)).2 "users" "john"
      = .error .io :=
  ⟨rfl, rfl⟩

/-- Claim C2 (refuted by the code, documenting the bug): the resource's
file `users/john.json` holds "B", but `Read("users", "john")` returns the
content "A" of the root-level file `users.json` — the existence probe and
the read both use the path formed from the root and the collection only,
not the resource. -/
theorem c2_read_ignores_resource :
    fsMix.readFile ["users", "john.json"] = some "B"
    ∧ fsMix.readFile ["users.json"] = some "A"
    ∧ Driver.Read (fun s => some (JsonVal.str s)) fsMix "users" "john" = .ok (.str "A") :=
  ⟨rfl, rfl, rfl⟩

/-- Claim C3, counterexample: `Delete` with an empty resource name does not
fail with a validation error — it succeeds and removes the whole `users`
collection directory, a filesystem mutation. -/
theorem c3_delete_empty_resource_mutates :
    (Driver.Delete fsOne "users" "").1 = none
    ∧ (Driver.Delete fsOne "users" "").2.lookup ["users"] = none
    ∧ fsOne.lookup ["users"] = some (Node.dir [("john.json", Node.file "X")]) :=
  ⟨rfl, rfl, rfl⟩

/-- Claim C3, amended: for `Write` and `Read` (but not `Delete`, which
performs no emptiness validation), an empty collection or resource name
yields a validation error and no filesystem mutation: `Write` returns the
store unchanged, and `Read` by construction never mutates it. -/
theorem c3_write_read_validation (um : String → Option JsonVal) (fs : FS)
    (c r : String) (v : GoValue) (h : c = "" ∨ r = "") :
    Driver.Write fs c r v = (some .validation, fs)
    ∧ Driver.Read um fs c r = .error .validation := by
  constructor
  · unfold Driver.Write
    rcases h with h | h
    · rw [if_pos h]
    · by_cases hc : c = ""
      · rw [if_pos hc]
      · rw [if_neg hc, if_pos h]
  · unfold Driver.Read
    rcases h with h | h
    · rw [if_pos h]
    · by_cases hc : c = ""
      · rw [if_pos hc]
      · rw [if_neg hc, if_pos h]

/-- Witness for the amended claim C3 at a concrete input. -/
theorem c3_write_read_validation_witness :
    Driver.Write fsEmpty "users" "" (GoValue.jsonable jv) = (some .validation, fsEmpty)
    ∧ Driver.Read (fun _ => none) fsEmpty "users" "" = .error .validation :=
  c3_write_read_validation (fun _ => none) fsEmpty "users" "" (GoValue.jsonable jv) (Or.inr rfl)

/-- Claim C7: when the delete target exists neither at the bare path nor at
the `.json`-suffixed path, `Delete` returns a not-found error and hands the
filesystem back unchanged. -/
theorem c7_delete_not_found (fs : FS) (c r : String)
    (hne : joinNames c r ≠ [])
    (h1 : fs.lookup (joinNames c r) = none)
    (h2 : fs.lookup (addJsonExt (joinNames c r)) = none) :
    Driver.Delete fs c r = (some .notFound, fs) := by
  cases hp : joinNames c r with
  | nil => exact absurd hp hne
  | cons a q =>
    rw [hp] at h1 h2
    simp [Driver.Delete, hp, FS.stat, FS.statRaw, h1, h2]

/-- Witness for claim C7 at a concrete input. -/
theorem c7_delete_not_found_witness :
    Driver.Delete fsTwo "users" "ringo" = (some DbErr.notFound, fsTwo) :=
  c7_delete_not_found fsTwo "users" "ringo" (by decide) rfl rfl

/-- Claim C9: `Delete("", "")` resolves its target to the root directory
itself (`filepath.Join` collapses both empty names) and, when the root
exists, removes the entire root directory, returning no error. -/
theorem c9_delete_root (fs : FS) (es : Entries)
    (h : fs.root = some (Node.dir es)) :
    Driver.Delete fs "" "" = (none, FS.mk none) := by
  have hstat : fs.stat [] = StatR.dir := by
    simp [FS.stat, FS.statRaw, FS.lookup, h, Node.lookup]
  simp [Driver.Delete, joinNames, hstat, FS.removeAll, h, removeAllAux]

/-- Witness for claim C9 at a concrete input. -/
theorem c9_delete_root_witness : Driver.Delete fsTwo "" "" = (none, FS.mk none) :=
  c9_delete_root fsTwo _ rfl

/-- Claim C10: when the collection directory is absent but a file
`<collection>.json` sits under the root, the existence probe succeeds via
the `.json` suffix, `ReadDir`'s failure is ignored (src/main.go line 134),
and `ReadAll` returns an empty sequence with no error. -/
theorem c10_readAll_ignores_listing_error (fs : FS) (rootEs : Entries) (c b : String)
    (hc : c ≠ "") (hroot : fs.root = some (Node.dir rootEs))
    (h1 : findEntry rootEs c = none)
    (h2 : findEntry rootEs (c ++ ".json") = some (Node.file b)) :
    Driver.ReadAll fs c = .ok [] := by
  have hl1 : fs.lookup [c] = none := by simp [FS.lookup, hroot, Node.lookup, h1]
  have hl2 : fs.lookup [c ++ ".json"] = some (Node.file b) := by
    simp [FS.lookup, hroot, Node.lookup, h2]
  have hext : addJsonExt [c] = [c ++ ".json"] := by simp [addJsonExt]
  have hstat : fs.stat [c] = StatR.file := by
    simp [FS.stat, FS.statRaw, hl1, hext, hl2]
  have hrd : fs.readDir [c] = none := by simp [FS.readDir, hl1]
  simp [Driver.ReadAll, hc, hstat, hrd, readRecords]

/-- Witness for claim C10 at a concrete input. -/
theorem c10_readAll_ignores_listing_error_witness :
    Driver.ReadAll fsStray "users" = .ok [] :=
  c10_readAll_ignores_listing_error fsStray [("users.json", Node.file "x")] "users" "x"
    (by decide) rfl rfl rfl

/-- Claim C4: deleting an existing resource removes exactly that resource's
`.json` file — every path not on the removed file's prefix chain resolves as
before — and deleting with an empty resource name removes the whole
collection directory with everything below it, again leaving unrelated
paths untouched. -/
theorem c4_delete_resource_and_collection :
    (∀ (fs : FS) (c r : String) (rootEs es : Entries) (b : String),
      fs.root = some (Node.dir rootEs) →
      findEntry rootEs c = some (Node.dir es) →
      (es.map Prod.fst).Nodup →
      c ≠ "" → r ≠ "" →
      findEntry es r = none →
      findEntry es (r ++ ".json") = some (Node.file b) →
      (Driver.Delete fs c r).1 = none
      ∧ (Driver.Delete fs c r).2.lookup [c, r ++ ".json"] = none
      ∧ ∀ p, pathLe [c, r ++ ".json"] p = false → pathLe p [c, r ++ ".json"] = false →
          (Driver.Delete fs c r).2.lookup p = fs.lookup p)
    ∧ (∀ (fs : FS) (c : String) (rootEs es : Entries),
      fs.root = some (Node.dir rootEs) →
      (rootEs.map Prod.fst).Nodup →
      findEntry rootEs c = some (Node.dir es) →
      c ≠ "" →
      (Driver.Delete fs c "").1 = none
      ∧ (∀ q, (Driver.Delete fs c "").2.lookup (c :: q) = none)
      ∧ ∀ p, pathLe [c] p = false → pathLe p [c] = false →
          (Driver.Delete fs c "").2.lookup p = fs.lookup p) := by
  constructor
  · intro fs c r rootEs es b hroot hfc hnd hc hr hfr hfj
    have hjn : joinNames c r = [c, r] := by simp [joinNames, hc, hr]
    have hcr : fs.lookup [c, r] = none := by
      simp [FS.lookup, hroot, Node.lookup, hfc, hfr]
    have hcrj : fs.lookup [c, r ++ ".json"] = some (Node.file b) := by
      simp [FS.lookup, hroot, Node.lookup, hfc, hfj]
    have hext : addJsonExt [c, r] = [c, r ++ ".json"] := by simp [addJsonExt]
    have hstat : fs.stat [c, r] = StatR.file := by
      simp [FS.stat, FS.statRaw, hcr, hext, hcrj]
    have hdel : Driver.Delete fs c r = (none, fs.removeAll [c, r ++ ".json"]) := by
      simp [Driver.Delete, hjn, hstat, hext]
    refine ⟨by rw [hdel], ?_, ?_⟩
    · rw [hdel]
      simp only [FS.removeAll, hroot, removeAllAux, hfc, hfj]
      simp [FS.lookup, Node.lookup, findEntry_setEntry_self,
        findEntry_removeEntry_self es (r ++ ".json") hnd]
    · intro p h1 h2
      rw [hdel]
      exact FS.removeAll_lookup_other fs [c, r ++ ".json"] p (by simp) h1 h2
  · intro fs c rootEs es hroot hnd hfc hc
    have hjn : joinNames c "" = [c] := by simp [joinNames, hc]
    have hstat : fs.stat [c] = StatR.dir := by
      simp [FS.stat, FS.statRaw, FS.lookup, hroot, Node.lookup, hfc]
    have hdel : Driver.Delete fs c "" = (none, fs.removeAll [c]) := by
      simp [Driver.Delete, hjn, hstat]
    refine ⟨by rw [hdel], ?_, ?_⟩
    · intro q
      rw [hdel]
      simp only [FS.removeAll, hroot, removeAllAux, hfc]
      simp [FS.lookup, Node.lookup, findEntry_removeEntry_self rootEs c hnd]
    · intro p h1 h2
      rw [hdel]
      exact FS.removeAll_lookup_other fs [c] p (by simp) h1 h2

/-- Witness for claim C4 at a concrete two-collection store. -/
theorem c4_delete_resource_and_collection_witness :
    ((Driver.Delete fsTwo "users" "john").1 = none
    ∧ (Driver.Delete fsTwo "users" "john").2.lookup ["users", "john.json"] = none
    ∧ (Driver.Delete fsTwo "users" "john").2.lookup ["users", "paul.json"]
        = fsTwo.lookup ["users", "paul.json"]
    ∧ (Driver.Delete fsTwo "users" "john").2.lookup ["posts"] = fsTwo.lookup ["posts"])
    ∧ ((Driver.Delete fsTwo "users" "").1 = none
    ∧ (Driver.Delete fsTwo "users" "").2.lookup ["users", "john.json"] = none
    ∧ (Driver.Delete fsTwo "users" "").2.lookup ["posts"] = fsTwo.lookup ["posts"]) := by
  have a := c4_delete_resource_and_collection.1 fsTwo "users" "john"
    [("users", Node.dir [("john.json", Node.file "J"), ("paul.json", Node.file "P")]),
     ("posts", Node.dir [])]
    [("john.json", Node.file "J"), ("paul.json", Node.file "P")] "J"
    rfl rfl (by decide) (by decide) (by decide) rfl rfl
  have b := c4_delete_resource_and_collection.2 fsTwo "users"
    [("users", Node.dir [("john.json", Node.file "J"), ("paul.json", Node.file "P")]),
     ("posts", Node.dir [])]
    [("john.json", Node.file "J"), ("paul.json", Node.file "P")]
    rfl (by decide) rfl (by decide)
  exact ⟨⟨a.1, a.2.1, a.2.2 ["users", "paul.json"] (by decide) (by decide),
          a.2.2 ["posts"] (by decide) (by decide)⟩,
         ⟨b.1, b.2.1 ["john.json"], b.2.2 ["posts"] (by decide) (by decide)⟩⟩

/-- Claim C5: when serialization fails, `Write` errors and the temporary
path and the final path both resolve exactly as before the call (in
particular no temp file appears and the previous final content survives);
and every successful `Write` factors as make-directory, write the
serialized bytes plus newline to the temporary sibling
`<resource>.json.tmp`, then rename it over `<resource>.json`. -/
theorem c5_write_temp_then_rename (fs : FS) (c r : String) (v : GoValue)
    (hc : c ≠ "") (hr : r ≠ "") :
    (goMarshalIndent v = none →
      (Driver.Write fs c r v).1 ≠ none
      ∧ (Driver.Write fs c r v).2.lookup [c, r ++ ".json" ++ ".tmp"]
          = fs.lookup [c, r ++ ".json" ++ ".tmp"]
      ∧ (Driver.Write fs c r v).2.lookup [c, r ++ ".json"]
          = fs.lookup [c, r ++ ".json"])
    ∧ (∀ fs', Driver.Write fs c r v = (none, fs') →
      ∃ b fs1 fs2, goMarshalIndent v = some b ∧ fs.mkdirAll [c] = some fs1
        ∧ fs1.writeFile [c, r ++ ".json" ++ ".tmp"] (b ++ "\n") = some fs2
        ∧ fs2.rename [c, r ++ ".json" ++ ".tmp"] [c, r ++ ".json"] = some fs') := by
  constructor
  · intro hm
    cases hmk : fs.mkdirAll [c] with
    | none =>
      have hW : Driver.Write fs c r v = (some DbErr.io, fs) := by
        unfold Driver.Write
        rw [if_neg hc, if_neg hr]
        simp only [hmk]
      rw [hW]
      exact ⟨by simp, rfl, rfl⟩
    | some fs1 =>
      have hW : Driver.Write fs c r v = (some DbErr.serialization, fs1) := by
        unfold Driver.Write
        rw [if_neg hc, if_neg hr]
        simp only [hmk, hm]
      rw [hW]
      exact ⟨by simp, mkdirAll_lookup_child fs c fs1 hmk _,
        mkdirAll_lookup_child fs c fs1 hmk _⟩
  · intro fs' h
    exact write_success_chain fs c r v fs' hc hr h

/-- Witness for claim C5: an unencodable value on the error side and a
concrete successful write on the success side. -/
theorem c5_write_temp_then_rename_witness :
    ((Driver.Write fsEmpty "users" "bad" GoValue.unsupported).1 ≠ none
    ∧ (Driver.Write fsEmpty "users" "bad" GoValue.unsupported).2.lookup
        ["users", "bad" ++ ".json"] = fsEmpty.lookup ["users", "bad" ++ ".json"])
    ∧ (∃ b fs1 fs2, goMarshalIndent (GoValue.jsonable jv) = some b
      ∧ fsEmpty.mkdirAll ["users"] = some fs1
      ∧ fs1.writeFile ["users", "john" ++ ".json" ++ ".tmp"] (b ++ "\n") = some fs2
      ∧ fs2.rename ["users", "john" ++ ".json" ++ ".tmp"] ["users", "john" ++ ".json"]
          = some (Driver.Write fsEmpty "users" "john" (GoValue.jsonable jv)).2) := by
  constructor
  · have h := (c5_write_temp_then_rename fsEmpty "users" "bad" GoValue.unsupported
      (by decide) (by decide)).1 rfl
    exact ⟨h.1, h.2.2⟩
  · exact (c5_write_temp_then_rename fsEmpty "users" "john" (GoValue.jsonable jv)
      (by decide) (by decide)).2 _ rfl

/-- Claim C6: after a successful `Write` of an encodable value, the file at
`<collection>/<resource>.json` holds the value pretty-printed with tab
indentation (`marshalIndent`) followed by exactly one appended newline. -/
theorem c6_written_content (fs : FS) (c r : String) (j : JsonVal) (fs' : FS)
    (hc : c ≠ "") (hr : r ≠ "")
    (h : Driver.Write fs c r (GoValue.jsonable j) = (none, fs')) :
    fs'.readFile [c, r ++ ".json"] = some (marshalIndent j ++ "\n") := by
  obtain ⟨b, fs1, fs2, hm, hmk, hw, hrn⟩ := write_success_chain fs c r _ fs' hc hr h
  have hb : b = marshalIndent j := by
    simpa [goMarshalIndent] using hm.symm
  subst hb
  obtain ⟨cnt, hsrc, hwr⟩ := FS.rename_inv fs2 _ _ fs' hrn
  have hself := FS.writeFile_lookup_self fs1 _ _ fs2 hw
  rw [hself] at hsrc
  have hcnt : marshalIndent j ++ "\n" = cnt := by
    simpa using hsrc
  subst hcnt
  have hfin := FS.writeFile_lookup_self (fs2.removeAll _) _ _ fs' hwr
  simp [FS.readFile, hfin]

/-- Witness for claim C6 at a concrete input. -/
theorem c6_written_content_witness :
    (Driver.Write fsEmpty "users" "john" (GoValue.jsonable jv)).2.readFile
      ["users", "john" ++ ".json"] = some (marshalIndent jv ++ "\n") :=
  c6_written_content fsEmpty "users" "john" jv _ (by decide) (by decide) rfl

/-- Claim C8, counterexample: the collection directory `users` does not
exist, yet `ReadAll` does not fail with a not-found error — the existence
probe succeeds via the stray root-level file `users.json` and the ignored
listing failure yields an empty result with no error. -/
theorem c8_missing_dir_counterexample :
    fsStray.lookup ["users"] = none ∧ Driver.ReadAll fsStray "users" = .ok [] :=
  ⟨rfl, rfl⟩

/-- Claim C8, amended: `ReadAll` fails with a validation error on an empty
collection name; it fails with a not-found error when neither the
collection directory nor the `.json`-suffixed path under the root exists;
and on a collection directory holding exactly the files described by
`pairs` it returns exactly one text blob per file, each equal to that
file's raw content (as a permutation, since listing order is the sorted
directory order). -/
theorem c8_readAll_amended (fs : FS) (c : String) :
    (c = "" → Driver.ReadAll fs c = .error .validation)
    ∧ (c ≠ "" → fs.lookup [c] = none → fs.lookup [c ++ ".json"] = none →
        Driver.ReadAll fs c = .error .notFound)
    ∧ (∀ pairs : List (String × String), c ≠ "" →
        (pairs.map Prod.fst).Nodup →
        fs.lookup [c] = some (Node.dir (pairs.map (fun q => (q.1, Node.file q.2)))) →
        ∃ rs, Driver.ReadAll fs c = .ok rs ∧ List.Perm rs (pairs.map Prod.snd)) := by
  refine ⟨?_, ?_, ?_⟩
  · intro h
    simp [Driver.ReadAll, h]
  · intro hc h1 h2
    have hext : addJsonExt [c] = [c ++ ".json"] := by simp [addJsonExt]
    simp [Driver.ReadAll, hc, FS.stat, FS.statRaw, h1, hext, h2]
  · intro pairs hc hnd hdir
    generalize hes : pairs.map (fun q => (q.1, Node.file q.2)) = es at hdir
    have hkeys : (es.map Prod.fst).Nodup := by
      rw [← hes, List.map_map]
      exact hnd
    have hstat : fs.stat [c] = StatR.dir := by
      simp [FS.stat, FS.statRaw, hdir]
    have hrd : fs.readDir [c] = some (sortEntries es) := by
      simp [FS.readDir, hdir]
    have hevery : ∀ e ∈ sortEntries es, ∃ cnt, e.2 = Node.file cnt
        ∧ fs.readFile ([c] ++ [e.1]) = some cnt := by
      intro e he
      have hmem : e ∈ es := ((sortEntries_perm es).mem_iff).mp he
      have hshape : ∃ q, q ∈ pairs ∧ (q.1, Node.file q.2) = e := by
        have hmem2 := hmem
        rw [← hes] at hmem2
        exact List.mem_map.mp hmem2
      obtain ⟨q, _, hqe⟩ := hshape
      have hfind : findEntry es e.1 = some e.2 :=
        findEntry_of_mem es e.1 e.2 hkeys hmem
      refine ⟨q.2, by rw [← hqe], ?_⟩
      have hlc := FS.lookup_child fs c es hdir e.1
      have : fs.readFile [c, e.1] = some q.2 := by
        unfold FS.readFile
        rw [hlc, hfind, ← hqe]
      simpa using this
    have hrr := readRecords_ok fs [c] (sortEntries es) hevery
    refine ⟨(sortEntries es).map (fun e => contentD e.2), ?_, ?_⟩
    · simp [Driver.ReadAll, hc, hstat, hrd, hrr]
    · have hperm := (sortEntries_perm es).map (fun e => contentD e.2)
      have hmap : es.map (fun e => contentD e.2) = pairs.map Prod.snd := by
        rw [← hes, List.map_map]
        rfl
      exact hmap ▸ hperm

/-- Witness for the amended claim C8: validation, not-found and a
two-resource listing at concrete inputs. -/
theorem c8_readAll_amended_witness :
    Driver.ReadAll fsEmpty "" = .error DbErr.validation
    ∧ Driver.ReadAll fsEmpty "users" = .error DbErr.notFound
    ∧ ∃ rs, Driver.ReadAll fsTwo "users" = .ok rs
        ∧ List.Perm rs ([("john.json", "J"), ("paul.json", "P")].map Prod.snd) :=
  ⟨(c8_readAll_amended fsEmpty "").1 rfl,
   (c8_readAll_amended fsEmpty "users").2.1 (by decide) rfl rfl,
   (c8_readAll_amended fsTwo "users").2.2 [("john.json", "J"), ("paul.json", "P")]
     (by decide) (by decide) rfl⟩

end DbBuild
